import Mathlib

/-!
Verification development for the `ai-email-checker` repository.

The repository is a TypeScript/Bun email-automation MVP.  This file gives a
shallow embedding of the parts of the code that the specification's claims
are about:

* the subject-normalisation and thread-grouping functions
  (`normalizeSubject`, `groupEmailsByThread` from the threading strategy
  document);
* the MCP server's tool handlers (`list_unread_emails`,
  `create_github_issue`) and the CLI helpers (`ensureLabelsExist`,
  `getUnreadEmails`) from `src/mcp-server.ts`;
* the label-driven state machine (`applyDecision`, `markDone`) and the
  briefing commit, which are specified but not implemented in the sources;
  those definitions are modelled from the spec and marked as such.

JavaScript strings are modelled as Lean `String`s over their character
lists; JavaScript `undefined`/missing fields are modelled with `Option`;
the JavaScript `||` default operator (which treats `""` and `0` as absent)
is modelled explicitly.
-/

/-! ### Subject normalisation (`normalizeSubject`, src/unnamed/part_001) -/

/-- Characters matched by the JavaScript regex class `\s` (ASCII fragment:
space, tab, line feed, carriage return, vertical tab, form feed).  The
subjects used in this development are ASCII, so the Unicode space
characters that `\s` also matches are not modelled. -/
def isJsSpace (c : Char) : Bool :=
  c = ' ' || c = '\t' || c = '\n' || c = '\r' || c = '\x0b' || c = '\x0c'

/-- Drop the leading run of JavaScript whitespace (the `\s*` part of the
marker regex, and one side of `trim`). -/
def dropWs : List Char → List Char
  | [] => []
  | c :: cs => if isJsSpace c then dropWs cs else c :: cs

/-- `startsWithCI pat cs` holds when `cs` starts with `pat` up to ASCII
case (the `i` flag of the marker regex); `pat` is given in lower case. -/
def startsWithCI : List Char → List Char → Bool
  | [], _ => true
  | _ :: _, [] => false
  | p :: ps, c :: cs => (c.toLower = p) && startsWithCI ps cs

/-- One application of `subject.replace(/^(Re:|Fwd?:|RE:|FW:)\s*/gi, '')`.
The regex is anchored at `^` and the input has no `m` flag, so even with
the `g` flag the JavaScript engine can only ever replace the single match
at position 0: exactly one leading marker (plus trailing whitespace) is
removed per call.  The alternation tries `Re:`, then `Fwd?:` (which
matches `fwd:` greedily, else `fw:`); the remaining alternatives are
subsumed by the `i` flag. -/
def stripOneMarker (cs : List Char) : List Char :=
  if startsWithCI ['r', 'e', ':'] cs then dropWs (cs.drop 3)
  else if startsWithCI ['f', 'w', 'd', ':'] cs then dropWs (cs.drop 4)
  else if startsWithCI ['f', 'w', ':'] cs then dropWs (cs.drop 3)
  else cs

/-- Helper for `.replace(/\s+/g, ' ')`: the flag records whether the
previous character was part of a whitespace run (in which case further
whitespace of the same run produces nothing). -/
def collapseWsAux : Bool → List Char → List Char
  | _, [] => []
  | prevWs, c :: cs =>
    if isJsSpace c then
      (if prevWs then collapseWsAux true cs else ' ' :: collapseWsAux true cs)
    else c :: collapseWsAux false cs

/-- `.replace(/\s+/g, ' ')`: every maximal whitespace run becomes a single
space. -/
def collapseWs (cs : List Char) : List Char :=
  collapseWsAux false cs

/-- `String.prototype.trim()`: strip leading and trailing whitespace. -/
def trimEnds (cs : List Char) : List Char :=
  (dropWs (dropWs cs).reverse).reverse

/-- `normalizeSubject` from the threading-strategy source:
`subject.replace(/^(Re:|Fwd?:|RE:|FW:)\s*/gi, '').replace(/\s+/g, ' ')
.trim().toLowerCase()`. -/
def normalizeSubject (subject : String) : String :=
  String.mk ((trimEnds (collapseWs (stripOneMarker subject.data))).map Char.toLower)

/-! ### Thread grouping (`groupEmailsByThread`, src/unnamed/part_001) -/

/-- The envelope fields `groupEmailsByThread` reads: `subject` for the
thread key and `date` for the sort comparator
`new Date(a.date).getTime() - new Date(b.date).getTime()`; the `date`
field here carries the parsed epoch value.  `id` stands for the remaining
identifying fields. -/
structure EmailEnvelope where
  id : String
  subject : String
  date : Nat
deriving DecidableEq, Repr

/-- The `EmailThread` objects produced by `groupEmailsByThread`:
`latestEmail` is `emails[emails.length - 1]`, which is `undefined` on an
empty array, hence the `Option`. -/
structure EmailThread where
  threadKey : String
  emails : List EmailEnvelope
  latestEmail : Option EmailEnvelope
deriving DecidableEq, Repr

/-- The thread key of an envelope: `normalizeSubject(email.subject)`. -/
def threadKeyOf (e : EmailEnvelope) : String :=
  normalizeSubject e.subject

/-- One step of building the insertion-ordered `Map`: appending `e` to the
entry for `key`, creating the entry at the end when absent (JavaScript
`Map` iteration order is insertion order of first occurrence). -/
def insertThreadEntry (acc : List (String × List EmailEnvelope)) (key : String)
    (e : EmailEnvelope) : List (String × List EmailEnvelope) :=
  match acc with
  | [] => [(key, [e])]
  | (k, v) :: rest =>
    if k = key then (k, v ++ [e]) :: rest
    else (k, v) :: insertThreadEntry rest key e

/-- The `threadMap` built by the first loop of `groupEmailsByThread`. -/
def threadMapOf (emails : List EmailEnvelope) : List (String × List EmailEnvelope) :=
  emails.foldl (fun acc e => insertThreadEntry acc (threadKeyOf e) e) []

/-- Value associated with a key in the entry list (empty when absent);
proof-side accessor for the `Map`. -/
def valOf : List (String × List EmailEnvelope) → String → List EmailEnvelope
  | [], _ => []
  | (k, v) :: rest, key => if k = key then v else valOf rest key

/-- The sort order used by `emails.sort((a, b) =>
new Date(a.date).getTime() - new Date(b.date).getTime())`. -/
def dateLe (a b : EmailEnvelope) : Prop :=
  a.date ≤ b.date

instance : DecidableRel dateLe := fun a b => Nat.decLe a.date b.date

instance : IsTotal EmailEnvelope dateLe := ⟨fun a b => Nat.le_total a.date b.date⟩

instance : IsTrans EmailEnvelope dateLe := ⟨fun _ _ _ hab hbc => Nat.le_trans hab hbc⟩

/-- `groupEmailsByThread` from the threading-strategy source: build the
map from normalised subject to envelope list, keep only entries with more
than one member (the source comment reads "Filter out single emails (keep
only actual threads)"), sort each kept member list by date ascending
(JavaScript `sort` is stable, so a stable insertion sort models it), and
take the last element of the sorted list as `latestEmail`. -/
def groupEmailsByThread (emails : List EmailEnvelope) : List EmailThread :=
  ((threadMapOf emails).filter (fun p => decide (1 < p.2.length))).map
    (fun p =>
      ⟨p.1, List.insertionSort dateLe p.2, (List.insertionSort dateLe p.2).getLast?⟩)

/-! ### MCP server and CLI helpers (`src/src/mcp-server.ts`) -/

/-- An envelope as returned by `himalaya envelope list -o json` and
consumed by the server: every field the handlers read, with `Option` for
fields that may be missing.  The nested `from` object is flattened to
`fromAddr`/`fromName`; `messageId` models `message_id`. -/
structure MailEnvelope where
  id : Option String
  uid : Option String
  messageId : Option String
  subject : Option String
  fromAddr : Option String
  fromName : Option String
  date : Option String
  internalDate : Option String
  snippet : Option String
  textPreview : Option String
  body : Option String
  flags : Option (List String)
deriving DecidableEq, Repr

/-- The `EmailSummary` interface of the MCP server. -/
structure EmailSummary where
  id : String
  subject : String
  «from» : String
  date : String
  snippet : String
deriving DecidableEq, Repr

/-- JavaScript `a || b` for a possibly-missing string `a`: `undefined` and
the empty string are falsy. -/
def jsOr (a : Option String) (b : String) : String :=
  match a with
  | none => b
  | some s => if s = "" then b else s

/-- The summary mapping of `list_unread_emails`.  `String(email.message_id)`
yields `"undefined"` when the field is absent. -/
def toEmailSummary (email : MailEnvelope) : EmailSummary :=
  { id := jsOr email.id (jsOr email.uid
      (match email.messageId with | some s => s | none => "undefined"))
    subject := jsOr email.subject "(No Subject)"
    «from» := jsOr email.fromAddr (jsOr email.fromName "Unknown")
    date := jsOr email.date (jsOr email.internalDate "Unknown")
    snippet := jsOr email.snippet (jsOr email.textPreview
      (jsOr (email.body.map (fun b => b.take 100)) "(No preview)")) }

/-- The unread filter shared by `list_unread_emails` and
`getUnreadEmails`: `!email.flags || !email.flags.includes("Seen")`.  A
missing `flags` field is falsy, so the envelope counts as unread; a
present array (even empty, which is truthy in JavaScript) is checked for
the `"Seen"` flag. -/
def unreadKeep (email : MailEnvelope) : Bool :=
  match email.flags with
  | none => true
  | some fs => !(fs.contains "Seen")

/-- `getUnreadEmails` from the CLI part of `src/mcp-server.ts`: filter the
listed envelopes with the unread predicate. -/
def getUnreadEmails (emails : List MailEnvelope) : List MailEnvelope :=
  emails.filter unreadKeep

/-- `const maxEmails = (args as any)?.max_emails || 50`: the `||` default
makes an absent argument and the (falsy) argument `0` both behave as 50. -/
def effectiveMaxEmails (maxEmails : Option Nat) : Nat :=
  match maxEmails with
  | none => 50
  | some k => if k = 0 then 50 else k

/-- The `list_unread_emails` handler body (success path): filter for
unread, `slice(0, maxEmails)`, and map to summaries. -/
def listUnreadEmails (emails : List MailEnvelope) (maxEmails : Option Nat) :
    List EmailSummary :=
  ((emails.filter unreadKeep).take (effectiveMaxEmails maxEmails)).map toEmailSummary

/-- `REQUIRED_LABELS` from `src/mcp-server.ts`. -/
def REQUIRED_LABELS : List String :=
  ["ai-email-checker/daily-brief", "ai-email-checker/daily-brief-done"]

/-- `ensureLabelsExist` from `src/mcp-server.ts`: list the existing
folders once, then for each required label absent from that snapshot issue
a `folder add`.  The embedding takes the listed folder names and returns
the labels created (in order) together with the resulting folder list;
a label already present produces no create. -/
def ensureLabelsExist (existingFolders : List String) : List String × List String :=
  REQUIRED_LABELS.foldl
    (fun acc label =>
      if label ∈ existingFolders then acc
      else (acc.1 ++ [label], acc.2 ++ [label]))
    ([], existingFolders)

/-- JavaScript `repo.split('/')`: split on every separator occurrence,
keeping empty pieces. -/
def splitSlashAux : List Char → List Char → List String
  | [], cur => [String.mk cur.reverse]
  | c :: rest, cur =>
    if c = '/' then String.mk cur.reverse :: splitSlashAux rest []
    else splitSlashAux rest (c :: cur)

/-- `repo.split('/')` on a Lean string. -/
def jsSplitSlash (s : String) : List String :=
  splitSlashAux s.data []

/-- A call to `octokit.rest.issues.create`. -/
structure GithubIssueCall where
  owner : String
  repo : String
  title : String
  body : String
deriving DecidableEq, Repr

/-- The observable outcome of the `create_github_issue` handler: the JSON
body's `success` field, the `isError` flag of the tool result (absent in
the success path, hence `false`), the issue-creation calls performed, and
the error message when one was produced. -/
structure ToolResponse where
  success : Bool
  isError : Bool
  calls : List GithubIssueCall
  errorMsg : Option String
deriving DecidableEq, Repr

/-- The `create_github_issue` handler: apply the destructuring default for
`repo`, split on `/`, and when owner or repo name is missing or empty
(`!owner || !repoName`, where a missing destructured component is
`undefined` and hence falsy like `""`), throw inside the `try` — which the
`catch` turns into a `success: false` JSON body with `isError: true`,
before any `octokit` call is made.  Otherwise the issue-creation call is
performed. -/
def createGithubIssue (title body : String) (repoArg : Option String) : ToolResponse :=
  let repo := match repoArg with
    | none => "camwest/ai-email-briefings"
    | some r => r
  let parts := jsSplitSlash repo
  let owner := parts.getD 0 ""
  let repoName := parts.getD 1 ""
  if owner = "" ∨ repoName = "" then
    { success := false
      isError := true
      calls := []
      errorMsg := some ("Invalid repo format: " ++ repo ++ ". Expected 'owner/repo'") }
  else
    { success := true
      isError := false
      calls := [⟨owner, repoName, title, body⟩]
      errorMsg := none }

/-! ### Label state machine and briefing commit (modelled from the spec)

The repository's sources contain only the spec, research documents and
thin CLI glue for these components; the operations below are therefore
modelled from the spec (§4.2 LabelStateMachine, §4.4 BriefingAggregator).
-/

/-- Modelled from the spec: the closed set of durable state labels;
`Pending` is the implicit absence of both. -/
inductive Label where
  | ReadyForBriefing
  | BriefingDone
deriving DecidableEq, Repr

/-- Modelled from the spec: the two classification categories. -/
inductive EmailCategory where
  | NeedsResponse
  | DailyBrief
deriving DecidableEq, Repr

/-- Modelled from the spec: an envelope's mutable mailbox-side state —
its stable `id`, its `labelSet` and its inbox placement.  Fields the
label operations never touch (subject, sender, timestamps, threading
hints) are omitted. -/
structure Envelope where
  id : String
  labelSet : Finset Label
  inInbox : Bool
deriving DecidableEq

/-- Modelled from the spec: a mailbox is the remote set of envelopes plus
its folder list (the latter mutated only by label creation). -/
structure Mailbox where
  envelopes : List Envelope
  folders : List String
deriving DecidableEq

/-- Modelled from the spec: `applyDecision(envelope, decision)` —
`NeedsResponse` performs no mutation; `DailyBrief` transitions to
`ReadyForBriefing` (apply the label, archive from the inbox) unless the
envelope is already labeled `ReadyForBriefing` or `BriefingDone`, which is
detected by inspecting `labelSet` before mutating and makes re-application
a no-op. -/
def applyDecision (e : Envelope) (decision : EmailCategory) : Envelope :=
  match decision with
  | .NeedsResponse => e
  | .DailyBrief =>
    if Label.ReadyForBriefing ∈ e.labelSet ∨ Label.BriefingDone ∈ e.labelSet then e
    else { e with labelSet := insert Label.ReadyForBriefing e.labelSet, inInbox := false }

/-- Modelled from the spec: the per-envelope effect of
`markDone(envelopeIds)` — for an envelope in the given set that carries
`ReadyForBriefing`, swap that label for `BriefingDone`; envelopes outside
the set are untouched. -/
def markDoneEnv (ids : List String) (e : Envelope) : Envelope :=
  if e.id ∈ ids ∧ Label.ReadyForBriefing ∈ e.labelSet then
    { e with labelSet := insert Label.BriefingDone (e.labelSet.erase Label.ReadyForBriefing) }
  else e

/-- Modelled from the spec: `applyDecision` lifted to the mailbox, acting
on the envelope with the given id. -/
def applyDecisionAt (mb : Mailbox) (eid : String) (decision : EmailCategory) : Mailbox :=
  { mb with envelopes := mb.envelopes.map (fun e => if e.id = eid then applyDecision e decision else e) }

/-- Modelled from the spec: `markDone(envelopeIds)` over the mailbox. -/
def markDone (mb : Mailbox) (ids : List String) : Mailbox :=
  { mb with envelopes := mb.envelopes.map (markDoneEnv ids) }

/-- Modelled from the spec: label creation (find-or-create of the required
label set) touches only the folder list, never an envelope's `labelSet`;
the folder-level effect is the one of `ensureLabelsExist`. -/
def ensureLabelsStep (mb : Mailbox) : Mailbox :=
  { mb with folders := (ensureLabelsExist mb.folders).2 }

/-- Modelled from the spec: the operations of the system, plus arrival of
a new envelope, which the mail transport creates with no state label. -/
inductive MailboxStep : Mailbox → Mailbox → Prop where
  | classify (mb : Mailbox) (eid : String) (decision : EmailCategory) :
      MailboxStep mb (applyDecisionAt mb eid decision)
  | brief (mb : Mailbox) (ids : List String) :
      MailboxStep mb (markDone mb ids)
  | ensure (mb : Mailbox) :
      MailboxStep mb (ensureLabelsStep mb)
  | arrive (mb : Mailbox) (e : Envelope) (h : e.labelSet = ∅) :
      MailboxStep mb { mb with envelopes := mb.envelopes ++ [e] }

/-- The at-most-one-of-the-two-state-labels predicate on one envelope. -/
def atMostOneBriefLabel (e : Envelope) : Prop :=
  ¬(Label.ReadyForBriefing ∈ e.labelSet ∧ Label.BriefingDone ∈ e.labelSet)

/-- The mailbox invariant: every envelope satisfies the at-most-one
predicate. -/
def MailboxInv (mb : Mailbox) : Prop :=
  ∀ e ∈ mb.envelopes, atMostOneBriefLabel e

/-- Modelled from the spec: a briefing report's commit data. -/
structure BriefingReport where
  generatedAt : Nat
  sourceEnvelopeIds : List String
deriving DecidableEq, Repr

/-- Modelled from the spec: the commit step of the briefing cycle —
`markDone(report.sourceEnvelopeIds)` is invoked exactly when
`IssueSink.publish(report)` succeeded; a `SinkPublishError` aborts the
commit and leaves the mailbox untouched. -/
def briefingCommit (publishOk : Bool) (report : BriefingReport) (mb : Mailbox) : Mailbox :=
  if publishOk then markDone mb report.sourceEnvelopeIds else mb

/-! Demonstration inputs used by the witness theorems. -/

/-- A thread member for the grouping witnesses. -/
def envHi1 : EmailEnvelope :=
  ⟨"1", "Hi", 5⟩

/-- A second member of the same conversation (stacked reply marker). -/
def envHi2 : EmailEnvelope :=
  ⟨"2", "Re: Hi", 3⟩

/-- An envelope with a unique normalised subject. -/
def envLone : EmailEnvelope :=
  ⟨"3", "Lone", 9⟩

/-- An MCP envelope with no `flags` field at all. -/
def mailDemo : MailEnvelope :=
  ⟨some "1", none, none, none, none, none, none, none, none, none, none, none⟩

/-- A pending envelope for the invariant witness. -/
def envDemo : Envelope :=
  ⟨"1", ∅, true⟩

/-- A one-envelope mailbox for the invariant witness. -/
def mbDemo : Mailbox :=
  ⟨[envDemo], []⟩


/-! ## Properties of the thread map -/

theorem valOf_insertThreadEntry_self (acc : List (String × List EmailEnvelope))
    (key : String) (e : EmailEnvelope) :
    valOf (insertThreadEntry acc key e) key = valOf acc key ++ [e] := by
  induction acc with
  | nil => simp [insertThreadEntry, valOf]
  | cons p rest ih =>
    obtain ⟨k, v⟩ := p
    by_cases h : k = key
    · simp [insertThreadEntry, valOf, h]
    · simp [insertThreadEntry, valOf, h, ih]

theorem valOf_insertThreadEntry_ne (acc : List (String × List EmailEnvelope))
    (key k : String) (e : EmailEnvelope) (h : k ≠ key) :
    valOf (insertThreadEntry acc key e) k = valOf acc k := by
  have hkk : ¬key = k := fun hh => h hh.symm
  induction acc with
  | nil => simp only [insertThreadEntry, valOf, if_neg hkk]
  | cons p rest ih =>
    obtain ⟨k1, v⟩ := p
    by_cases h1 : k1 = key
    · subst h1
      simp only [insertThreadEntry, if_pos rfl, valOf, if_neg hkk]
    · simp only [insertThreadEntry, if_neg h1, valOf]
      by_cases h2 : k1 = k
      · simp [h2]
      · simp [h2, ih]

theorem keys_insertThreadEntry (acc : List (String × List EmailEnvelope))
    (key : String) (e : EmailEnvelope) :
    (insertThreadEntry acc key e).map Prod.fst =
      if key ∈ acc.map Prod.fst then acc.map Prod.fst
      else acc.map Prod.fst ++ [key] := by
  induction acc with
  | nil => simp [insertThreadEntry]
  | cons p rest ih =>
    obtain ⟨k1, v⟩ := p
    by_cases h1 : k1 = key
    · subst h1
      simp [insertThreadEntry]
    · have h1' : ¬key = k1 := fun hh => h1 hh.symm
      by_cases h2 : key ∈ rest.map Prod.fst
      · simp [insertThreadEntry, h1, h2, ih, h1']
      · simp [insertThreadEntry, h1, h2, ih, h1']

theorem valOf_eq_of_mem (acc : List (String × List EmailEnvelope))
    (p : String × List EmailEnvelope)
    (hnd : (acc.map Prod.fst).Nodup) (hp : p ∈ acc) :
    valOf acc p.1 = p.2 := by
  induction acc with
  | nil => cases hp
  | cons q rest ih =>
    obtain ⟨k1, v⟩ := q
    rcases List.mem_cons.mp hp with h | h
    · subst h
      simp [valOf]
    · have hne : k1 ≠ p.1 := by
        intro hk
        have : p.1 ∈ rest.map Prod.fst := List.mem_map_of_mem Prod.fst h
        rw [← hk] at this
        exact (List.nodup_cons.mp (by simpa using hnd)).1 this
      simp only [valOf, if_neg hne]
      exact ih (List.nodup_cons.mp (by simpa using hnd)).2 h

theorem mem_of_valOf (acc : List (String × List EmailEnvelope)) (k : String)
    (hk : k ∈ acc.map Prod.fst) :
    (k, valOf acc k) ∈ acc := by
  induction acc with
  | nil => simp at hk
  | cons q rest ih =>
    obtain ⟨k1, v⟩ := q
    by_cases h : k1 = k
    · subst h
      simp [valOf]
    · have hk2 : k ∈ rest.map Prod.fst := by
        rcases List.mem_cons.mp hk with h1 | h1
        · exact absurd h1.symm h
        · exact h1
      simp only [valOf, if_neg h]
      exact List.mem_cons_of_mem _ (ih hk2)

theorem entry_unique (acc : List (String × List EmailEnvelope))
    (p q : String × List EmailEnvelope)
    (hnd : (acc.map Prod.fst).Nodup) (hp : p ∈ acc) (hq : q ∈ acc) (hk : p.1 = q.1) :
    p = q := by
  have h1 := valOf_eq_of_mem acc p hnd hp
  have h2 := valOf_eq_of_mem acc q hnd hq
  rw [hk] at h1
  have : p.2 = q.2 := by rw [← h1, ← h2]
  exact Prod.ext hk this

theorem threadFold_char (pending : List EmailEnvelope) :
    ∀ (acc : List (String × List EmailEnvelope)) (done : List EmailEnvelope),
    (acc.map Prod.fst).Nodup →
    (∀ k, valOf acc k = done.filter (fun x => decide (threadKeyOf x = k))) →
    (∀ k, k ∈ acc.map Prod.fst ↔ done.filter (fun x => decide (threadKeyOf x = k)) ≠ []) →
    (((pending.foldl (fun acc e => insertThreadEntry acc (threadKeyOf e) e) acc).map Prod.fst).Nodup ∧
     (∀ k, valOf (pending.foldl (fun acc e => insertThreadEntry acc (threadKeyOf e) e) acc) k =
        (done ++ pending).filter (fun x => decide (threadKeyOf x = k))) ∧
     (∀ k, k ∈ (pending.foldl (fun acc e => insertThreadEntry acc (threadKeyOf e) e) acc).map Prod.fst ↔
        (done ++ pending).filter (fun x => decide (threadKeyOf x = k)) ≠ [])) := by
  induction pending with
  | nil =>
    intro acc done h1 h2 h3
    simp only [List.foldl_nil, List.append_nil]
    exact ⟨h1, h2, h3⟩
  | cons e rest ih =>
    intro acc done h1 h2 h3
    have n1 : ((insertThreadEntry acc (threadKeyOf e) e).map Prod.fst).Nodup := by
      rw [keys_insertThreadEntry]
      split_ifs with hm
      · exact h1
      · simp [List.nodup_append, h1, hm]
    have n2 : ∀ k, valOf (insertThreadEntry acc (threadKeyOf e) e) k =
        (done ++ [e]).filter (fun x => decide (threadKeyOf x = k)) := by
      intro k
      by_cases hk : threadKeyOf e = k
      · subst hk
        rw [valOf_insertThreadEntry_self, h2]
        simp [List.filter_append]
      · rw [valOf_insertThreadEntry_ne _ _ _ _ (fun hh => hk hh.symm), h2]
        simp [List.filter_append, hk]
    have n3 : ∀ k, k ∈ (insertThreadEntry acc (threadKeyOf e) e).map Prod.fst ↔
        (done ++ [e]).filter (fun x => decide (threadKeyOf x = k)) ≠ [] := by
      intro k
      rw [keys_insertThreadEntry]
      by_cases hk : threadKeyOf e = k
      · subst hk
        have hne : (done ++ [e]).filter (fun x => decide (threadKeyOf x = threadKeyOf e)) ≠ [] := by
          simp [List.filter_append]
        split_ifs with hm
        · simp [hm, hne]
        · simp [hne]
      · have hfe : (done ++ [e]).filter (fun x => decide (threadKeyOf x = k)) =
            done.filter (fun x => decide (threadKeyOf x = k)) := by
          simp [List.filter_append, hk]
        split_ifs with hm
        · rw [hfe]
          exact h3 k
        · rw [hfe]
          simp only [List.mem_append, List.mem_singleton]
          constructor
          · rintro (h | h)
            · exact (h3 k).mp h
            · exact absurd h.symm hk
          · intro h
            exact Or.inl ((h3 k).mpr h)
    have hstep := ih (insertThreadEntry acc (threadKeyOf e) e) (done ++ [e]) n1 n2 n3
    simp only [List.foldl_cons]
    rw [show done ++ e :: rest = (done ++ [e]) ++ rest by simp]
    exact hstep

theorem threadMapOf_char (emails : List EmailEnvelope) :
    ((threadMapOf emails).map Prod.fst).Nodup ∧
    (∀ k, valOf (threadMapOf emails) k =
      emails.filter (fun x => decide (threadKeyOf x = k))) ∧
    (∀ k, k ∈ (threadMapOf emails).map Prod.fst ↔
      emails.filter (fun x => decide (threadKeyOf x = k)) ≠ []) := by
  have h := threadFold_char emails [] [] (by simp) (by intro k; simp [valOf]) (by intro k; simp)
  simpa [threadMapOf] using h

theorem mem_groupEmailsByThread {es : List EmailEnvelope} {t : EmailThread} :
    t ∈ groupEmailsByThread es ↔
      ∃ p ∈ threadMapOf es, 1 < p.2.length ∧
        t = ⟨p.1, List.insertionSort dateLe p.2, (List.insertionSort dateLe p.2).getLast?⟩ := by
  simp only [groupEmailsByThread, List.mem_map, List.mem_filter, decide_eq_true_eq]
  constructor
  · rintro ⟨p, ⟨hp, hlen⟩, ht⟩
    exact ⟨p, hp, hlen, ht.symm⟩
  · rintro ⟨p, hp, hlen, ht⟩
    exact ⟨p, ⟨hp, hlen⟩, ht.symm⟩

/-! ## Claims C4 and C5: subject normalisation -/

/-- Claim C4 (code bug): `normalizeSubject` is not idempotent.  The marker
regex is anchored at the start of the string, so each call strips only one
leading marker; on `"Re: Re: a"` the first call leaves `"re: a"` and a
second call strips again, yielding `"a"`. -/
theorem normalizeSubject_not_idempotent :
    normalizeSubject "Re: Re: a" = "re: a" ∧
    normalizeSubject (normalizeSubject "Re: Re: a") = "a" ∧
    normalizeSubject (normalizeSubject "Re: Re: a") ≠ normalizeSubject "Re: Re: a" := by
  refine ⟨rfl, rfl, ?_⟩
  decide

/-- Claim C5 (code bug): stacked markers are not stripped repeatably.  On
`"Re: Re: Fwd: X"` the code removes only the first `Re:` and returns
`"re: fwd: x"`, not the bare subject `"x"` promised by the spec. -/
theorem normalizeSubject_single_strip :
    normalizeSubject "Re: Re: Fwd: X" = "re: fwd: x" ∧
    normalizeSubject "Re: Re: Fwd: X" ≠ "x" := by
  refine ⟨rfl, ?_⟩
  decide

/-! ## Claims C6 and C7: thread grouping -/

theorem getLast?_mem_self (l : List EmailEnvelope) (b : EmailEnvelope)
    (hb : l.getLast? = some b) : b ∈ l := by
  induction l with
  | nil => simp at hb
  | cons a rest ih =>
    cases rest with
    | nil =>
      simp only [List.getLast?_singleton, Option.some.injEq] at hb
      simp [hb]
    | cons c r2 =>
      rw [List.getLast?_cons_cons] at hb
      exact List.mem_cons_of_mem _ (ih hb)

theorem sorted_le_getLast :
    ∀ (l : List EmailEnvelope), l.Sorted dateLe →
      ∀ b, l.getLast? = some b → ∀ x ∈ l, x.date ≤ b.date := by
  intro l
  induction l with
  | nil =>
    intro _ b hb
    simp at hb
  | cons a rest ih =>
    intro hs b hb x hx
    cases rest with
    | nil =>
      simp only [List.getLast?_singleton, Option.some.injEq] at hb
      rcases List.mem_singleton.mp hx with rfl
      rw [hb]
    | cons c r2 =>
      rw [List.getLast?_cons_cons] at hb
      have hcons := List.pairwise_cons.mp hs
      rcases List.mem_cons.mp hx with rfl | hxm
      · exact hcons.1 b (getLast?_mem_self _ b hb)
      · exact ih hcons.2 b hb x hxm

/-- Claim C6 counterexample: the grouper's output is not a partition of
its input — an envelope with a unique normalised subject appears in no
output cluster at all, because the code filters entries down to those with
more than one member. -/
theorem groupEmailsByThread_drops_singletons :
    groupEmailsByThread [⟨"1", "Hello", 0⟩] = [] := rfl

/-- Claim C6 (corrected): an envelope whose normalised subject occurs at
least twice in the input appears in exactly one output cluster; an
envelope whose normalised subject is unique in the input appears in no
cluster (singletons are dropped by the `length > 1` filter). -/
theorem groupEmailsByThread_membership (es : List EmailEnvelope) (e : EmailEnvelope)
    (he : e ∈ es) :
    (2 ≤ (es.filter (fun x => decide (threadKeyOf x = threadKeyOf e))).length →
      ∃! t, t ∈ groupEmailsByThread es ∧ e ∈ t.emails) ∧
    ((es.filter (fun x => decide (threadKeyOf x = threadKeyOf e))).length = 1 →
      ∀ t ∈ groupEmailsByThread es, e ∉ t.emails) := by
  obtain ⟨hnd, hval, hkeys⟩ := threadMapOf_char es
  have heF : e ∈ es.filter (fun x => decide (threadKeyOf x = threadKeyOf e)) := by
    simp [List.mem_filter, he]
  constructor
  · intro h2
    have hne : es.filter (fun x => decide (threadKeyOf x = threadKeyOf e)) ≠ [] := by
      intro h0
      rw [h0] at heF
      exact List.not_mem_nil e heF
    have hkmem : threadKeyOf e ∈ (threadMapOf es).map Prod.fst := (hkeys _).mpr hne
    have hpm : (threadKeyOf e, valOf (threadMapOf es) (threadKeyOf e)) ∈ threadMapOf es :=
      mem_of_valOf _ _ hkmem
    have hlen : 1 < (valOf (threadMapOf es) (threadKeyOf e)).length := by
      rw [hval]
      omega
    refine ⟨⟨threadKeyOf e,
        List.insertionSort dateLe (valOf (threadMapOf es) (threadKeyOf e)),
        (List.insertionSort dateLe (valOf (threadMapOf es) (threadKeyOf e))).getLast?⟩,
      ⟨?_, ?_⟩, ?_⟩
    · exact mem_groupEmailsByThread.mpr
        ⟨(threadKeyOf e, valOf (threadMapOf es) (threadKeyOf e)), hpm, hlen, rfl⟩
    · show e ∈ List.insertionSort dateLe (valOf (threadMapOf es) (threadKeyOf e))
      rw [List.mem_insertionSort, hval]
      exact heF
    · rintro t' ⟨ht'm, ht'e⟩
      rcases mem_groupEmailsByThread.mp ht'm with ⟨p, hp, hplen, rfl⟩
      have hep : e ∈ p.2 := by
        have := ht'e
        simpa [List.mem_insertionSort] using this
      have hp2 : p.2 = es.filter (fun x => decide (threadKeyOf x = p.1)) := by
        rw [← hval, valOf_eq_of_mem _ _ hnd hp]
      have hkeq : threadKeyOf e = p.1 := by
        rw [hp2, List.mem_filter] at hep
        simpa using hep.2
      have hpeq : p = (threadKeyOf e, valOf (threadMapOf es) (threadKeyOf e)) := by
        apply entry_unique _ _ _ hnd hp hpm
        exact hkeq.symm ▸ rfl
      rw [hpeq]
  · intro h1 t htm hte
    rcases mem_groupEmailsByThread.mp htm with ⟨p, hp, hplen, rfl⟩
    have hep : e ∈ p.2 := by
      simpa [List.mem_insertionSort] using hte
    have hp2 : p.2 = es.filter (fun x => decide (threadKeyOf x = p.1)) := by
      rw [← hval, valOf_eq_of_mem _ _ hnd hp]
    have hkeq : threadKeyOf e = p.1 := by
      rw [hp2, List.mem_filter] at hep
      simpa using hep.2
    rw [hp2, ← hkeq, h1] at hplen
    omega

/-- Claim C6 witness: in a three-envelope input where two envelopes share
the normalised subject `"hi"` and one is unique, the shared envelope lies
in exactly one cluster and the unique one in none. -/
theorem groupEmailsByThread_membership_witness :
    (∃! t, t ∈ groupEmailsByThread [envHi1, envHi2, envLone] ∧ envHi1 ∈ t.emails) ∧
    (∀ t ∈ groupEmailsByThread [envHi1, envHi2, envLone], envLone ∉ t.emails) :=
  ⟨(groupEmailsByThread_membership [envHi1, envHi2, envLone] envHi1 (by decide)).1 (by decide),
   (groupEmailsByThread_membership [envHi1, envHi2, envLone] envLone (by decide)).2 (by decide)⟩

/-- Claim C7 (confirmed): every output cluster's member list is ordered by
date ascending, its `latestEmail` is the last element of that ordered
list, and hence no member has a later date than `latestEmail`. -/
theorem groupEmailsByThread_sorted_latest (es : List EmailEnvelope) (t : EmailThread)
    (ht : t ∈ groupEmailsByThread es) :
    t.emails.Sorted dateLe ∧ t.latestEmail = t.emails.getLast? ∧
    (∀ l, t.latestEmail = some l → ∀ x ∈ t.emails, x.date ≤ l.date) := by
  rcases mem_groupEmailsByThread.mp ht with ⟨p, hp, hplen, rfl⟩
  refine ⟨List.sorted_insertionSort dateLe p.2, rfl, ?_⟩
  intro l hl x hx
  exact sorted_le_getLast _ (List.sorted_insertionSort dateLe p.2) l hl x hx

/-- Claim C7 witness: on the two-envelope conversation demo, the cluster's
members come out oldest-first and `latestEmail` is the newest member. -/
theorem groupEmailsByThread_sorted_latest_witness :
    (⟨"hi", [envHi2, envHi1], some envHi1⟩ : EmailThread) ∈
      groupEmailsByThread [envHi1, envHi2] ∧
    ([envHi2, envHi1] : List EmailEnvelope).Sorted dateLe :=
  ⟨by decide,
   (groupEmailsByThread_sorted_latest [envHi1, envHi2] ⟨"hi", [envHi2, envHi1], some envHi1⟩
      (by decide)).1⟩

/-! ## Claim C2: label creation is idempotent find-or-create -/

/-- Claim C2 (confirmed): `ensureLabelsExist` issues a create exactly for
the required labels missing from the listed folder set; a second run over
the resulting folder set creates nothing (so re-running is a success, not
an error) and leaves the folder set of the first run unchanged. -/
theorem ensureLabelsExist_find_or_create (fs : List String) :
    (ensureLabelsExist fs).1 = REQUIRED_LABELS.filter (fun l => decide (l ∉ fs)) ∧
    (ensureLabelsExist (ensureLabelsExist fs).2).1 = [] ∧
    (ensureLabelsExist (ensureLabelsExist fs).2).2 = (ensureLabelsExist fs).2 := by
  by_cases h1 : "ai-email-checker/daily-brief" ∈ fs <;>
    by_cases h2 : "ai-email-checker/daily-brief-done" ∈ fs <;>
    refine ⟨?_, ?_, ?_⟩ <;>
    simp [ensureLabelsExist, REQUIRED_LABELS, h1, h2, List.mem_append]

/-! ## Claims C8 and C9: unread selection -/

/-- Claim C8 (confirmed): an envelope is kept by the unread selection if
and only if its `flags` field is absent or does not contain `"Seen"`; in
particular an envelope with no `flags` field is always classified unread,
and the `list_unread_emails` handler draws from exactly the same unread
set as `getUnreadEmails` (then truncates and summarises it). -/
theorem unread_selection_missing_flags (es : List MailEnvelope) (e : MailEnvelope)
    (he : e ∈ es) :
    (e ∈ getUnreadEmails es ↔ (e.flags = none ∨ ∃ fs, e.flags = some fs ∧ "Seen" ∉ fs)) ∧
    (e.flags = none → e ∈ getUnreadEmails es) ∧
    (∀ m, listUnreadEmails es m =
      ((getUnreadEmails es).take (effectiveMaxEmails m)).map toEmailSummary) := by
  have hiff : unreadKeep e = true ↔
      (e.flags = none ∨ ∃ fs, e.flags = some fs ∧ "Seen" ∉ fs) := by
    cases hf : e.flags with
    | none => simp [unreadKeep, hf]
    | some fs => simp [unreadKeep, hf, List.contains]
  refine ⟨?_, ?_, ?_⟩
  · rw [getUnreadEmails, List.mem_filter]
    constructor
    · rintro ⟨_, hk⟩
      exact hiff.mp hk
    · intro h
      exact ⟨he, hiff.mpr h⟩
  · intro hf
    rw [getUnreadEmails, List.mem_filter]
    exact ⟨he, by simp [unreadKeep, hf]⟩
  · intro m
    rfl

/-- Claim C8 witness: a flagless envelope is selected as unread. -/
theorem unread_selection_missing_flags_witness :
    mailDemo ∈ [mailDemo] ∧ mailDemo ∈ getUnreadEmails [mailDemo] :=
  ⟨by decide,
   (unread_selection_missing_flags [mailDemo] mailDemo (by decide)).2.1 (by decide)⟩

/-- Claim C9 (confirmed): calling `list_unread_emails` with
`max_emails = 0` behaves exactly as if the argument had been omitted
(the `|| 50` default treats the falsy `0` as absent), returning up to 50
summaries; for every positive `n` at most `n` summaries are returned. -/
theorem listUnreadEmails_max_zero (es : List MailEnvelope) :
    listUnreadEmails es (some 0) = listUnreadEmails es none ∧
    (listUnreadEmails es (some 0)).length ≤ 50 ∧
    (∀ n : Nat, 0 < n → (listUnreadEmails es (some n)).length ≤ n) := by
  refine ⟨rfl, ?_, ?_⟩
  · rw [listUnreadEmails, List.length_map]
    exact List.length_take_le _ _
  · intro n hn
    have hmax : effectiveMaxEmails (some n) = n := by
      simp [effectiveMaxEmails, Nat.pos_iff_ne_zero.mp hn]
    rw [listUnreadEmails, List.length_map, hmax]
    exact List.length_take_le _ _

/-- Claim C9 witness: with one unread envelope, `max_emails = 0` returns
the same (nonempty) result as omitting the argument, and `max_emails = 1`
returns at most one summary. -/
theorem listUnreadEmails_max_zero_witness :
    listUnreadEmails [mailDemo] (some 0) = listUnreadEmails [mailDemo] none ∧
    (listUnreadEmails [mailDemo] (some 0)).length = 1 ∧
    (listUnreadEmails [mailDemo] (some 1)).length ≤ 1 :=
  ⟨(listUnreadEmails_max_zero [mailDemo]).1, by decide,
   (listUnreadEmails_max_zero [mailDemo]).2.2 1 (by decide)⟩

/-! ## Claim C10: invalid repo argument of `create_github_issue` -/

/-- Claim C10 (confirmed): when the `repo` argument does not split on `/`
into a non-empty owner and a non-empty repository name, the handler
performs no issue-creation call and returns a structured error
(`success: false` with the `isError` flag set) instead of propagating the
exception. -/
theorem createGithubIssue_invalid_repo (title body repo : String)
    (h : (jsSplitSlash repo).getD 0 "" = "" ∨ (jsSplitSlash repo).getD 1 "" = "") :
    (createGithubIssue title body (some repo)).calls = [] ∧
    (createGithubIssue title body (some repo)).success = false ∧
    (createGithubIssue title body (some repo)).isError = true := by
  simp only [createGithubIssue]
  rw [if_pos h]
  exact ⟨rfl, rfl, rfl⟩

/-- Claim C10 witness: a repo string without a slash has no repository
name component, so the handler reports the structured error and performs
no call. -/
theorem createGithubIssue_invalid_repo_witness :
    ((jsSplitSlash "noslash").getD 0 "" = "" ∨ (jsSplitSlash "noslash").getD 1 "" = "") ∧
    (createGithubIssue "title" "body" (some "noslash")).calls = [] :=
  ⟨by decide,
   (createGithubIssue_invalid_repo "title" "body" "noslash" (by decide)).1⟩

/-! ## Claims C1 and C3: label state machine and briefing commit -/

theorem applyDecision_atMostOne (e : Envelope) (d : EmailCategory)
    (h : atMostOneBriefLabel e) : atMostOneBriefLabel (applyDecision e d) := by
  cases d with
  | NeedsResponse => exact h
  | DailyBrief =>
    rw [applyDecision]
    split_ifs with hc
    · exact h
    · intro hb
      rcases Finset.mem_insert.mp hb.2 with hd | hd
      · cases hd
      · exact hc (Or.inr hd)

theorem markDoneEnv_atMostOne (ids : List String) (e : Envelope)
    (h : atMostOneBriefLabel e) : atMostOneBriefLabel (markDoneEnv ids e) := by
  rw [markDoneEnv]
  split_ifs with hc
  · intro hb
    rcases Finset.mem_insert.mp hb.1 with hd | hd
    · cases hd
    · exact ((Finset.mem_erase.mp hd).1 rfl).elim
  · exact h

theorem mailboxStep_preserves (mb mb' : Mailbox) (st : MailboxStep mb mb')
    (h : MailboxInv mb) : MailboxInv mb' := by
  cases st with
  | classify eid d =>
    intro e' he'
    rcases List.mem_map.mp he' with ⟨e, hem, rfl⟩
    by_cases hid : e.id = eid
    · rw [if_pos hid]
      exact applyDecision_atMostOne e d (h e hem)
    · rw [if_neg hid]
      exact h e hem
  | brief ids =>
    intro e' he'
    rcases List.mem_map.mp he' with ⟨e, hem, rfl⟩
    exact markDoneEnv_atMostOne ids e (h e hem)
  | ensure =>
    intro e he
    exact h e he
  | arrive e hlab =>
    intro e' he'
    rcases List.mem_append.mp he' with hm | hm
    · exact h e' hm
    · rcases List.mem_singleton.mp hm with rfl
      intro hb
      rw [hlab] at hb
      exact Finset.not_mem_empty _ hb.1

/-- Claim C1 (confirmed, modelled from the spec): starting from any
mailbox satisfying the at-most-one-of-`{ReadyForBriefing, BriefingDone}`
predicate, every state reachable through the system's operations
(`applyDecision`, `markDone`, label creation, plus arrival of unlabelled
mail) still satisfies it: no envelope ever carries both labels. -/
theorem mailbox_invariant_preserved (mb mb' : Mailbox) (h : MailboxInv mb)
    (hr : Relation.ReflTransGen MailboxStep mb mb') : MailboxInv mb' := by
  induction hr with
  | refl => exact h
  | tail _ st ih => exact mailboxStep_preserves _ _ st ih

/-- Claim C1 witness: a one-envelope pending mailbox satisfies the
invariant, and so does the state reached by classifying that envelope as
`DailyBrief`. -/
theorem mailbox_invariant_preserved_witness :
    MailboxInv mbDemo ∧ MailboxInv (applyDecisionAt mbDemo "1" EmailCategory.DailyBrief) := by
  have h0 : MailboxInv mbDemo := by
    intro e he
    rcases List.mem_singleton.mp he with rfl
    intro hb
    exact Finset.not_mem_empty _ hb.1
  exact ⟨h0, mailbox_invariant_preserved mbDemo _ h0
    (Relation.ReflTransGen.single (MailboxStep.classify mbDemo "1" EmailCategory.DailyBrief))⟩

/-- Claim C3 (confirmed, modelled from the spec): `markDone` runs exactly
when `IssueSink.publish` succeeded; on a publish failure the mailbox is
left untouched, so no envelope transitions to `BriefingDone` and every
envelope labelled `ReadyForBriefing` is still so labelled for the next
briefing cycle to re-aggregate. -/
theorem briefingCommit_downstream_of_publish (report : BriefingReport) (mb : Mailbox) :
    briefingCommit true report mb = markDone mb report.sourceEnvelopeIds ∧
    briefingCommit false report mb = mb ∧
    (briefingCommit false report mb).envelopes.filter
        (fun e => decide (Label.BriefingDone ∈ e.labelSet)) =
      mb.envelopes.filter (fun e => decide (Label.BriefingDone ∈ e.labelSet)) ∧
    (briefingCommit false report mb).envelopes.filter
        (fun e => decide (Label.ReadyForBriefing ∈ e.labelSet)) =
      mb.envelopes.filter (fun e => decide (Label.ReadyForBriefing ∈ e.labelSet)) :=
  ⟨rfl, rfl, rfl, rfl⟩
